import Mathlib

/-!
Verification of the three-stage HTML text-analytics pipeline
(`problem3/processor/process.py` and `problem3/analyzer/analyze.py`).

The Python string and regex operations used by the pipeline are embedded as
executable functions over `List Char` / `String`; the Processor and Analyzer
main loops are embedded as pure functions over explicit corpora.
-/

namespace Pipeline

/-- Python `\s` for ASCII text: space, tab, newline, carriage return,
vertical tab, form feed (the whitespace that `str.split()`, `str.strip()`
and the regex `\s` agree on for ASCII input). -/
def pyIsSpace (c : Char) : Bool :=
  c = ' ' || c = '\t' || c = '\n' || c = '\r' || c = '\x0b' || c = '\x0c'

/-- ASCII lower-casing, as used by `re.IGNORECASE` on ASCII patterns. -/
def lowerChar (c : Char) : Char :=
  if 'A' ≤ c ∧ c ≤ 'Z' then Char.ofNat (c.toNat + 32) else c

/-- Case-insensitive prefix test: does `cs` start with the (lower-case)
pattern `pat`? -/
def startsWithCI : List Char → List Char → Bool
  | [], _ => true
  | _ :: _, [] => false
  | p :: ps, c :: cs => lowerChar c = p && startsWithCI ps cs

/-- Search for the leftmost case-insensitive occurrence of `pat` in `cs` and
return the suffix just after it (the tail of the regex `.*?pat`). -/
def dropThroughCI (pat : List Char) : List Char → Option (List Char)
  | [] => if startsWithCI pat [] then some [] else none
  | c :: cs =>
    if startsWithCI pat (c :: cs) then some (List.drop pat.length (c :: cs))
    else dropThroughCI pat cs

/-- Consume `[^>]*>` : skip characters distinct from `>`, then require `>`;
returns the suffix after the `>`. -/
def dropPastGt : List Char → Option (List Char)
  | [] => none
  | c :: cs => if c = '>' then some cs else dropPastGt cs

/-- Attempt to match the regex `<TAG[^>]*>.*?</TAG>` (case-insensitive,
`.` spanning newlines) at the head of `cs`; on success return the suffix
after the whole match.  `openTag` is `<TAG` and `closeTag` is `</TAG>`,
both lower-case. -/
def matchBlockAt (openTag closeTag : List Char) (cs : List Char) :
    Option (List Char) :=
  if startsWithCI openTag cs then
    match dropPastGt (List.drop openTag.length cs) with
    | none => none
    | some afterOpen => dropThroughCI closeTag afterOpen
  else none

/-- `re.sub(r'<TAG[^>]*>.*?</TAG>', '', ·)`: left-to-right, non-overlapping
removal of every match of the block pattern.  `fuel` bounds the recursion;
`fuel = cs.length` always suffices since every step consumes at least one
character. -/
def removeBlocksGo (openTag closeTag : List Char) : Nat → List Char → List Char
  | 0, cs => cs
  | _ + 1, [] => []
  | fuel + 1, c :: cs =>
    match matchBlockAt openTag closeTag (c :: cs) with
    | some rest => removeBlocksGo openTag closeTag fuel rest
    | none => c :: removeBlocksGo openTag closeTag fuel cs

def removeBlocks (openTag closeTag : List Char) (cs : List Char) : List Char :=
  removeBlocksGo openTag closeTag cs.length cs

/-- Attempt to match the regex `<[^>]+>` at the head: a `<`, at least one
character distinct from `>`, then `>`; returns the suffix after the match. -/
def matchTagAt : List Char → Option (List Char)
  | '<' :: c :: cs => if c = '>' then none else dropPastGt (c :: cs)
  | _ => none

/-- `re.sub(r'<[^>]+>', ' ', ·)`: replace every tag with a single space. -/
def stripTagsGo : Nat → List Char → List Char
  | 0, cs => cs
  | _ + 1, [] => []
  | fuel + 1, c :: cs =>
    match matchTagAt (c :: cs) with
    | some rest => ' ' :: stripTagsGo fuel rest
    | none => c :: stripTagsGo fuel cs

def stripTags (cs : List Char) : List Char := stripTagsGo cs.length cs

/-- `re.sub(r'\s+', ' ', ·)`: collapse every maximal whitespace run to a
single space.  The flag records whether the previous character was part of
a whitespace run already replaced. -/
def collapseWsGo : List Char → Bool → List Char
  | [], _ => []
  | c :: cs, prevWs =>
    if pyIsSpace c then
      if prevWs then collapseWsGo cs true else ' ' :: collapseWsGo cs true
    else c :: collapseWsGo cs false

def collapseWs (cs : List Char) : List Char := collapseWsGo cs false

/-- Python `str.strip()` restricted to ASCII whitespace. -/
def pyStrip (cs : List Char) : List Char :=
  ((cs.dropWhile pyIsSpace).reverse.dropWhile pyIsSpace).reverse

/-- A character admissible inside the captured group of
`href=['"]?([^'" >]+)` / `src=['"]?([^'" >]+)`. -/
def okAttrChar (c : Char) : Bool :=
  !(c = '\'' || c = '"' || c = ' ' || c = '>')

/-- Attempt to match `PAT['"]?([^'" >]+)` at the head of `cs` (with `PAT`
the lower-case attribute prefix such as `href=`); on success return the
captured group and the suffix after it.  The optional-quote alternative is
resolved exactly as the backtracking engine does: if a quote is present but
followed by no admissible character, the quoteless alternative also fails
because a quote is itself inadmissible in the group. -/
def matchAttrAt (pat : List Char) (cs : List Char) :
    Option (List Char × List Char) :=
  if startsWithCI pat cs then
    let rest := List.drop pat.length cs
    let body := match rest with
      | q :: rs => if q = '"' || q = '\'' then rs.takeWhile okAttrChar
                   else rest.takeWhile okAttrChar
      | [] => []
    let rest2 := match rest with
      | q :: rs => if q = '"' || q = '\'' then rs.dropWhile okAttrChar
                   else rest.dropWhile okAttrChar
      | [] => []
    if body.isEmpty then none else some (body, rest2)
  else none

/-- `re.findall(PAT['"]?([^'" >]+), ·, re.IGNORECASE)`: all captured groups,
leftmost first, scanning resuming after each match. -/
def findAttrGo (pat : List Char) : Nat → List Char → List (List Char)
  | 0, _ => []
  | _ + 1, [] => []
  | fuel + 1, c :: cs =>
    match matchAttrAt pat (c :: cs) with
    | some (body, rest) => body :: findAttrGo pat fuel rest
    | none => findAttrGo pat fuel cs

def findAttr (pat : List Char) (cs : List Char) : List (List Char) :=
  findAttrGo pat cs.length cs

/-- Python `str.split()` (no argument): split on maximal whitespace runs,
discarding empty pieces.  `cur` accumulates the current word reversed. -/
def pySplitGo : List Char → List Char → List (List Char)
  | [], cur => if cur.isEmpty then [] else [cur.reverse]
  | c :: cs, cur =>
    if pyIsSpace c then
      if cur.isEmpty then pySplitGo cs [] else cur.reverse :: pySplitGo cs []
    else pySplitGo cs (c :: cur)

def pySplit (s : String) : List String :=
  (pySplitGo s.data []).map List.asString

/-- Python `str.count(c)` for a single-character argument. -/
def countChar (c : Char) (s : String) : Nat := s.data.count c

/-- Locate the leftmost occurrence of `sep` in `cs`: returns the part
before it and the suffix after it. -/
def findSepSplit (sep : List Char) : List Char → Option (List Char × List Char)
  | [] => if sep.isEmpty then some ([], []) else none
  | c :: cs =>
    if sep.isPrefixOf (c :: cs) then some ([], List.drop sep.length (c :: cs))
    else match findSepSplit sep cs with
      | some (pre, post) => some (c :: pre, post)
      | none => none

/-- Python `str.split(sep)` for a non-empty separator: non-overlapping,
left-to-right. -/
def splitOnSepGo (sep : List Char) : Nat → List Char → List (List Char)
  | 0, cs => [cs]
  | fuel + 1, cs =>
    match findSepSplit sep cs with
    | none => [cs]
    | some (pre, post) => pre :: splitOnSepGo sep fuel post

def splitOnSep (sep : List Char) (cs : List Char) : List (List Char) :=
  splitOnSepGo sep cs.length cs

/-- Python `str.replace(pat, repl)` for a non-empty `pat`: replace every
non-overlapping occurrence, left to right. -/
def replaceAllGo (pat repl : List Char) : Nat → List Char → List Char
  | 0, cs => cs
  | _ + 1, [] => []
  | fuel + 1, c :: cs =>
    if pat.isPrefixOf (c :: cs) then
      repl ++ replaceAllGo pat repl fuel (List.drop pat.length (c :: cs))
    else c :: replaceAllGo pat repl fuel cs

def replaceAll (pat repl : List Char) (s : String) : String :=
  (replaceAllGo pat repl s.data.length s.data).asString

/-- Python `str.endswith(suffix)`. -/
def pyEndsWith (suffix : List Char) (s : String) : Bool :=
  suffix.isSuffixOf s.data

/-- Boolean strict lexicographic comparison on character lists, by code
point — the order Python string comparison uses. -/
def lexLtB : List Char → List Char → Bool
  | [], [] => false
  | [], _ :: _ => true
  | _ :: _, [] => false
  | a :: as, b :: bs =>
    if a < b then true else if b < a then false else lexLtB as bs

/-- Boolean `≤` on strings (lexicographic by code point), the comparison
underlying Python `sorted` on filenames. -/
def strLeB (a b : String) : Bool := !(lexLtB b.data a.data)

/-- Stable insertion for insertion sort by a boolean `≤`. -/
def insertSortedBy (le : α → α → Bool) (x : α) : List α → List α
  | [] => [x]
  | y :: ys => if le x y then x :: y :: ys else y :: insertSortedBy le x ys

/-- Insertion sort by a boolean `≤`; stable, as Python `sorted` is. -/
def sortBy (le : α → α → Bool) : List α → List α
  | [] => []
  | x :: xs => insertSortedBy le x (sortBy le xs)

/-! ### Processor (`process.py`) -/

/-- `strip_html`: remove script blocks, then style blocks, extract `href=`
and `src=` attribute values from the stripped markup, then strip the
remaining tags, collapse whitespace and trim, yielding
`(text, links, images)`. -/
def strip_html (s : String) : String × List String × List String :=
  let c1 := removeBlocks "<script".data "</script>".data s.data
  let c2 := removeBlocks "<style".data "</style>".data c1
  let links := (findAttr "href=".data c2).map List.asString
  let images := (findAttr "src=".data c2).map List.asString
  let text := (pyStrip (collapseWs (stripTags c2))).asString
  (text, links, images)

structure DocStats where
  word_count : Nat
  sentence_count : Nat
  paragraph_count : Nat
  avg_word_length : ℚ
  deriving Repr, DecidableEq

/-- `get_statistics`: statistics of the extracted plain text. -/
def get_statistics (text : String) : DocStats :=
  let words := pySplit text
  let word_count := words.length
  let sentence_count :=
    countChar '.' text + countChar '!' text + countChar '?' text
  let paragraph_count :=
    ((splitOnSep ['\n', '\n'] text.data).filter
      (fun p => !(pyStrip p).isEmpty)).length
  let total_word_length := (words.map String.length).sum
  { word_count := word_count
    sentence_count := sentence_count
    paragraph_count := paragraph_count
    avg_word_length :=
      if word_count = 0 then 0 else (total_word_length : ℚ) / word_count }

structure ProcessedDoc where
  source_file : String
  text : String
  statistics : DocStats
  links : List String
  images : List String
  deriving Repr, DecidableEq

/-- The per-document transformation of the Processor's main loop. -/
def processDoc (name : String) (content : String) : ProcessedDoc :=
  let r := strip_html content
  { source_file := name
    text := r.1
    statistics := get_statistics r.1
    links := r.2.1
    images := r.2.2 }

/-- `sorted([f for f in os.listdir(...) if f.endswith(".html")])`:
the Processor's document selection. -/
def processorSelect (names : List String) : List String :=
  sortBy strLeB (names.filter (pyEndsWith ".html".data))

/-- `file.replace(".html", ".json")`: the artifact naming rule. -/
def outputName (f : String) : String :=
  replaceAll ".html".data ".json".data f

/-- The Processor run on a raw directory listing with a content function:
each selected file, in sorted order, becomes one artifact
`(output name, processed document)`. -/
def processorRun (names : List String) (content : String → String) :
    List (String × ProcessedDoc) :=
  (processorSelect names).map (fun f => (outputName f, processDoc f (content f)))

/-! ### Analyzer (`analyze.py`) -/

/-- `jaccard_score`: Jaccard similarity of the two token lists' sets,
`0.0` when both sets are empty. -/
def jaccard_score (tokens_a tokens_b : List String) : ℚ :=
  let set_a := tokens_a.toFinset
  let set_b := tokens_b.toFinset
  if set_a = ∅ ∧ set_b = ∅ then 0
  else ((set_a ∩ set_b).card : ℚ) / ((set_a ∪ set_b).card : ℚ)

/-- `make_ngrams`: `[" ".join(words[i:i+n]) for i in range(len(words)-n+1)]`
(an empty list when `len(words) - n + 1 ≤ 0`, as `range` of a negative
bound is empty). -/
def make_ngrams (words : List String) (n : Nat) : List String :=
  (List.range (words.length + 1 - n)).map
    (fun i => " ".intercalate ((words.drop i).take n))

/-- The key sequence of a `collections.Counter` built from a list:
each distinct element once, in order of first appearance. -/
def counterKeys : List String → List String
  | [] => []
  | x :: xs => x :: (counterKeys xs).filter (fun y => y ≠ x)

/-- The `(key, count)` items of a `Counter` built from `l`, in insertion
order. -/
def counterItems (l : List String) : List (String × Nat) :=
  (counterKeys l).map (fun w => (w, l.count w))

/-- Stable insertion into a count-descending list: the new item goes after
every already-placed item of count ≥ its own, as Python's stable
`sorted(..., reverse=True)` orders ties by original position. -/
def insertByCount (x : String × Nat) : List (String × Nat) → List (String × Nat)
  | [] => [x]
  | y :: ys => if y.2 < x.2 then x :: y :: ys else y :: insertByCount x ys

/-- `Counter.most_common(k)`: items sorted by count descending (stable on
ties), truncated to `k`. -/
def mostCommon (k : Nat) (l : List String) : List (String × Nat) :=
  ((counterItems l).foldl (fun acc x => insertByCount x acc) []).take k

structure WordEntry where
  word : String
  count : Nat
  frequency : ℚ
  deriving Repr, DecidableEq

structure SimEntry where
  doc1 : String
  doc2 : String
  similarity : ℚ
  deriving Repr, DecidableEq

structure BigramEntry where
  bigram : String
  count : Nat
  deriving Repr, DecidableEq

structure Readability where
  avg_sentence_length : ℚ
  avg_word_length : ℚ
  complexity_score : ℚ
  deriving Repr, DecidableEq

structure FinalReport where
  documents_processed : Nat
  total_words : Nat
  unique_words : Nat
  top_100_words : List WordEntry
  document_similarity : List SimEntry
  top_bigrams : List BigramEntry
  readability : Readability
  deriving Repr, DecidableEq

/-- A corpus: the processed artifacts available to the Analyzer, as
`(filename, stored text field)` pairs. -/
abbrev Corpus := List (String × String)

/-- The Analyzer reads artifacts in filename-sorted order. -/
def sortedCorpus (corpus : Corpus) : Corpus :=
  sortBy (fun a b => strLeB a.1 b.1) corpus

/-- Token list of the `i`-th document of the sorted corpus
(`docs_tokens[file_list[i]]`). -/
def tokensAt (corpus : Corpus) (i : Nat) : List String :=
  pySplit ((sortedCorpus corpus).getD i ("", "")).2

/-- The nested index loop `for i in range(n): for j in range(i+1, n)`,
as the list of visited `(i, j)` pairs (`range(a, b)` is `range' a (b-a)`). -/
def pairIdx (n : Nat) : List (Nat × Nat) :=
  (List.range n).flatMap (fun i =>
    (List.range' (i + 1) (n - (i + 1))).map (fun j => (i, j)))

/-- The similarity loop of `main`: for `i` in `range(n)`, for `j` in
`range(i+1, n)`, one entry `(file_list[i], file_list[j], jaccard)`. -/
def simResults (corpus : Corpus) : List SimEntry :=
  let fileList := (sortedCorpus corpus).map Prod.fst
  let n := fileList.length
  (pairIdx n).map (fun p =>
    { doc1 := fileList.getD p.1 ""
      doc2 := fileList.getD p.2 ""
      similarity := jaccard_score (tokensAt corpus p.1) (tokensAt corpus p.2) })

/-- All tokens fed to `total_counter`, document by document in sorted
order. -/
def allTokens (corpus : Corpus) : List String :=
  ((sortedCorpus corpus).map (fun d => pySplit d.2)).flatten

/-- All bigrams fed to `bigram_counter`: per-document bigrams, documents in
sorted order. -/
def allBigrams (corpus : Corpus) : List String :=
  ((sortedCorpus corpus).map (fun d => make_ngrams (pySplit d.2) 2)).flatten

/-- The Analyzer's `main` as a pure function from the corpus to the final
report (timestamp omitted). -/
def analyzerReport (corpus : Corpus) : FinalReport :=
  let toks := allTokens corpus
  let total_words := ((counterItems toks).map Prod.snd).sum
  let top_words := (mostCommon 100 toks).map
    (fun wc => { word := wc.1, count := wc.2,
                 frequency := (wc.2 : ℚ) / (total_words : ℚ) : WordEntry })
  let est_sentence_count := ((sortedCorpus corpus).map
    (fun d => countChar '.' d.2 + countChar '!' d.2 + countChar '?' d.2)).sum
  let avg_sentence_len := (total_words : ℚ) / ((max est_sentence_count 1 : ℕ) : ℚ)
  let avg_word_len :=
    if total_words = 0 then 0
    else ((((counterItems toks).map
            (fun wc => wc.2 * wc.1.length)).sum : ℕ) : ℚ) / (total_words : ℚ)
  { documents_processed := (sortedCorpus corpus).length
    total_words := total_words
    unique_words := (counterItems toks).length
    top_100_words := top_words
    document_similarity := simResults corpus
    top_bigrams := (mostCommon 50 (allBigrams corpus)).map
      (fun bc => { bigram := bc.1, count := bc.2 : BigramEntry })
    readability :=
      { avg_sentence_length := avg_sentence_len
        avg_word_length := avg_word_len
        complexity_score := avg_sentence_len * avg_word_len } }

/-- The load phase of the Analyzer: each artifact either parses to a
document with a `text` field (`some text`) or is structurally invalid
(`none`, an unparsable file or one with no `text` key, on which
`json.load` / `data["text"]` raises).  The loop loads every artifact and
propagates the first failure. -/
def loadAll : List (String × Option String) → Except String Corpus
  | [] => Except.ok []
  | (name, some text) :: rest =>
    (loadAll rest).map (fun docs => (name, text) :: docs)
  | (name, none) :: _ => Except.error name

/-- The Analyzer run over raw artifacts: the report is computed (and the
report file written) only after `loadAll` has succeeded on every
artifact. -/
def analyzerRun (artifacts : List (String × Option String)) :
    Except String FinalReport :=
  (loadAll artifacts).map analyzerReport

/-- Modelled from the spec (the claim compares the report against this
spec-side quantity; the code computes no such value): the document
frequency of a token is the number of documents of the corpus whose token
sequence contains it. -/
def specDocumentFrequency (corpus : Corpus) (w : String) : Nat :=
  (corpus.filter (fun d => w ∈ pySplit d.2)).length

/-- Modelled from the spec (for comparison with the code's statistic; the
code computes no such value): the paragraph count taken on the tag-stripped
text while it still contains the original line breaks, i.e. before
whitespace collapsing — the count of non-blank blocks separated by a
double line break. -/
def specParagraphCount (html : String) : Nat :=
  let c1 := removeBlocks "<script".data "</script>".data html.data
  let c2 := removeBlocks "<style".data "</style>".data c1
  ((splitOnSep ['\n', '\n'] (stripTags c2)).filter
    (fun p => !(pyStrip p).isEmpty)).length

/-- A page made of well-formed anchor tags, one per URL: the generator used
to state extraction of every `href=` value in order. -/
def mkLinkPage : List String → String
  | [] => ""
  | u :: us => "<a href=\"" ++ u ++ "\">" ++ mkLinkPage us

/-- A page made of well-formed image tags, one per URL: the generator used
to state extraction of every `src=` value in order. -/
def mkImgPage : List String → String
  | [] => ""
  | u :: us => "<img src=\"" ++ u ++ "\">" ++ mkImgPage us

/-- The admissibility condition on a generated URL: non-empty and made of
characters the capture group accepts. -/
def okUrl (u : String) : Prop :=
  u.data ≠ [] ∧ ∀ c ∈ u.data, okAttrChar c = true

instance (u : String) : Decidable (okUrl u) := by
  unfold okUrl
  infer_instance

/-! ### Order lemmas: the boolean comparison agrees with `≤` on `String` -/

theorem lexLtB_iff (as bs : List Char) : lexLtB as bs = true ↔ as < bs := by
  induction as generalizing bs with
  | nil =>
    cases bs with
    | nil =>
      simp only [lexLtB, Bool.false_eq_true, false_iff]
      exact nofun
    | cons b bs =>
      simp only [lexLtB, true_iff]
      exact List.Lex.nil
  | cons a as ih =>
    cases bs with
    | nil =>
      simp only [lexLtB, Bool.false_eq_true, false_iff]
      exact nofun
    | cons b bs =>
      by_cases hab : a < b
      · rw [lexLtB, if_pos hab]
        simp only [true_iff]
        exact List.Lex.rel hab
      · by_cases hba : b < a
        · rw [lexLtB, if_neg hab, if_pos hba]
          simp only [Bool.false_eq_true, false_iff]
          intro h
          cases h with
          | cons h1 => exact lt_irrefl a hba
          | rel h1 => exact hab h1
        · have hE : a = b := le_antisymm (not_lt.mp hba) (not_lt.mp hab)
          subst hE
          rw [lexLtB, if_neg hab, if_neg hba, ih bs]
          constructor
          · exact fun h => List.Lex.cons h
          · intro h
            cases h with
            | cons h1 => exact h1
            | rel h1 => exact absurd h1 hab

theorem strLeB_iff (a b : String) : strLeB a b = true ↔ a ≤ b := by
  show (!lexLtB b.data a.data) = true ↔ ¬ b < a
  rw [String.lt_iff_toList_lt, ← lexLtB_iff]
  simp [String.toList]

/-! ### Insertion sort lemmas -/

theorem mem_insertSortedBy {le : α → α → Bool} {x a : α} :
    ∀ {l : List α}, a ∈ insertSortedBy le x l ↔ a = x ∨ a ∈ l
  | [] => by simp [insertSortedBy]
  | y :: ys => by
    by_cases h : le x y = true
    · rw [insertSortedBy, if_pos h]
      simp
    · rw [insertSortedBy, if_neg h]
      simp only [List.mem_cons, mem_insertSortedBy (l := ys)]
      tauto

theorem insertSortedBy_perm (le : α → α → Bool) (x : α) :
    ∀ l : List α, List.Perm (insertSortedBy le x l) (x :: l)
  | [] => List.Perm.refl _
  | y :: ys => by
    by_cases h : le x y = true
    · rw [insertSortedBy, if_pos h]
    · rw [insertSortedBy, if_neg h]
      exact ((insertSortedBy_perm le x ys).cons y).trans (List.Perm.swap x y ys)

theorem sortBy_perm (le : α → α → Bool) : ∀ l : List α, List.Perm (sortBy le l) l
  | [] => List.Perm.refl _
  | x :: xs => (insertSortedBy_perm le x (sortBy le xs)).trans
      ((sortBy_perm le xs).cons x)

theorem insertSortedBy_pairwise {le : α → α → Bool}
    (total : ∀ a b, le a b = true ∨ le b a = true)
    (ltrans : ∀ a b c, le a b = true → le b c = true → le a c = true)
    (x : α) : ∀ {l : List α}, l.Pairwise (fun a b => le a b = true) →
      (insertSortedBy le x l).Pairwise (fun a b => le a b = true)
  | [], _ => by simp [insertSortedBy]
  | y :: ys, h => by
    obtain ⟨hy, hys⟩ := List.pairwise_cons.mp h
    by_cases hxy : le x y = true
    · rw [insertSortedBy, if_pos hxy]
      exact List.Pairwise.cons
        (fun z hz => (List.mem_cons.mp hz).elim (fun e => e ▸ hxy)
          (fun hz' => ltrans x y z hxy (hy z hz'))) h
    · rw [insertSortedBy, if_neg hxy]
      refine List.Pairwise.cons (fun z hz => ?_)
        (insertSortedBy_pairwise total ltrans x hys)
      rcases mem_insertSortedBy.mp hz with h' | hz'
      · rw [h']
        exact (total x y).resolve_left hxy
      · exact hy z hz'

theorem sortBy_pairwise {le : α → α → Bool}
    (total : ∀ a b, le a b = true ∨ le b a = true)
    (ltrans : ∀ a b c, le a b = true → le b c = true → le a c = true) :
    ∀ l : List α, (sortBy le l).Pairwise (fun a b => le a b = true)
  | [] => List.Pairwise.nil
  | x :: xs => insertSortedBy_pairwise total ltrans x
      (sortBy_pairwise total ltrans xs)

theorem strLeB_total (a b : String) : strLeB a b = true ∨ strLeB b a = true := by
  rw [strLeB_iff, strLeB_iff]; exact le_total a b

theorem strLeB_trans (a b c : String) :
    strLeB a b = true → strLeB b c = true → strLeB a c = true := by
  rw [strLeB_iff, strLeB_iff, strLeB_iff]; exact le_trans

/-! ### Claim theorems -/

/-- C4: `jaccard_score` is the Jaccard similarity of the two token lists'
sets (duplicates collapse via `toFinset`): it is symmetric, equals 1 on any
non-empty list against itself, equals 0 on two empty lists, and always lies
in [0, 1]. -/
theorem jaccard_score_algebra (A B : List String) :
    jaccard_score A B = jaccard_score B A ∧
    (A ≠ [] → jaccard_score A A = 1) ∧
    jaccard_score ([] : List String) ([] : List String) = 0 ∧
    0 ≤ jaccard_score A B ∧ jaccard_score A B ≤ 1 := by
  refine ⟨?_, ?_, ?_, ?_, ?_⟩
  · by_cases hA : A.toFinset = ∅ <;> by_cases hB : B.toFinset = ∅ <;>
      simp [jaccard_score, hA, hB, Finset.inter_comm, Finset.union_comm]
  · intro hA
    have h1 : A.toFinset ≠ ∅ := by
      simpa [← List.toFinset_eq_empty_iff] using hA
    have hc : (0 : ℚ) < (A.toFinset.card : ℚ) := by
      exact_mod_cast Finset.card_pos.mpr (Finset.nonempty_iff_ne_empty.mpr h1)
    simp only [jaccard_score, h1, false_and, if_false, Finset.inter_self,
      Finset.union_self]
    exact div_self (ne_of_gt hc)
  · simp [jaccard_score]
  · simp only [jaccard_score]
    split
    · exact le_refl 0
    · positivity
  · simp only [jaccard_score]
    split
    · exact zero_le_one
    · rename_i h
      have hpos : (0 : ℚ) < ((A.toFinset ∪ B.toFinset).card : ℚ) := by
        have hne : (A.toFinset ∪ B.toFinset).Nonempty := by
          rcases not_and_or.mp h with h1 | h1
          · exact (Finset.nonempty_iff_ne_empty.mpr h1).mono
              Finset.subset_union_left
          · exact (Finset.nonempty_iff_ne_empty.mpr h1).mono
              Finset.subset_union_right
        exact_mod_cast Finset.card_pos.mpr hne
      rw [div_le_one hpos]
      exact_mod_cast Finset.card_le_card Finset.inter_subset_union

/-- C4 witness: the theorem applied at concrete token lists. -/
theorem jaccard_score_algebra_witness :
    (["cat", "dog"] : List String) ≠ [] ∧
      jaccard_score ["cat", "dog"] ["cat", "dog"] = 1 :=
  ⟨by decide, (jaccard_score_algebra ["cat", "dog"] ["dog", "bird"]).2.1
    (by decide)⟩

/-- C10: the Processor selects exactly the filenames ending in ".html",
visits them in lexicographically sorted order, and names each artifact by
replacing every occurrence of ".html" with ".json"; non-".html" files
yield no artifact. -/
theorem processor_selection_sorted_naming (names : List String)
    (content : String → String) :
    (∀ f, f ∈ processorSelect names ↔
        f ∈ names ∧ pyEndsWith ".html".data f = true) ∧
    List.Sorted (· ≤ ·) (processorSelect names) ∧
    processorRun names content =
      (processorSelect names).map
        (fun f => (outputName f, processDoc f (content f))) ∧
    outputName "page.html" = "page.json" ∧
    outputName "a.html.html" = "a.json.json" ∧
    outputName "notes.txt" = "notes.txt" := by
  refine ⟨?_, ?_, rfl, by decide, by decide, by decide⟩
  · intro f
    unfold processorSelect
    rw [(sortBy_perm strLeB (names.filter (pyEndsWith ".html".data))).mem_iff]
    simp [List.mem_filter]
  · exact List.Pairwise.imp (fun h => (strLeB_iff _ _).mp h)
      (sortBy_pairwise strLeB_total strLeB_trans _)

/-- C10 witness: selection of a concrete listing. -/
theorem processor_selection_sorted_naming_witness :
    "a.html" ∈ processorSelect ["b.html", "x.txt", "a.html"] :=
  ((processor_selection_sorted_naming ["b.html", "x.txt", "a.html"]
    (fun _ => "")).1 "a.html").mpr ⟨by decide, by decide⟩

theorem loadAll_error {arts : List (String × Option String)}
    (h : ∃ a ∈ arts, a.2 = none) :
    ∃ nm, loadAll arts = Except.error nm := by
  induction arts with
  | nil => simp at h
  | cons b bs ih =>
    obtain ⟨nm, ob⟩ := b
    cases ob with
    | none => exact ⟨nm, rfl⟩
    | some t =>
      obtain ⟨a, ha, hnone⟩ := h
      rcases List.mem_cons.mp ha with rfl | hmem
      · exact absurd hnone (by simp)
      · obtain ⟨nm', he⟩ := ih ⟨a, hmem, hnone⟩
        exact ⟨nm', by simp only [loadAll, he]; rfl⟩

/-- C9: the Analyzer's report is produced only from a fully successful load
phase; if any artifact is structurally invalid (`none`), the whole run is
an error and no report value exists. -/
theorem invalid_artifact_aborts (arts : List (String × Option String))
    (h : ∃ a ∈ arts, a.2 = none) :
    analyzerRun arts = (loadAll arts).map analyzerReport ∧
    ∀ r, analyzerRun arts ≠ Except.ok r := by
  refine ⟨rfl, ?_⟩
  obtain ⟨nm, he⟩ := loadAll_error h
  intro r
  simp [analyzerRun, he, Except.map]

/-- C9 witness: a corpus with one unparsable artifact yields no report. -/
theorem invalid_artifact_aborts_witness :
    analyzerRun [("a.json", some "x"), ("b.json", none)] ≠
      Except.ok (analyzerReport [("a.json", "x")]) :=
  (invalid_artifact_aborts [("a.json", some "x"), ("b.json", none)]
    ⟨("b.json", none), by decide, rfl⟩).2 _

theorem mem_insertByCount {x a : String × Nat} :
    ∀ {l : List (String × Nat)}, a ∈ insertByCount x l ↔ a = x ∨ a ∈ l
  | [] => by simp [insertByCount]
  | y :: ys => by
    by_cases h : y.2 < x.2
    · rw [insertByCount, if_pos h]
      simp
    · rw [insertByCount, if_neg h]
      simp only [List.mem_cons, mem_insertByCount (l := ys)]
      tauto

theorem pairwise_insertByCount (x : String × Nat) :
    ∀ {l : List (String × Nat)},
      l.Pairwise (fun a b => b.2 ≤ a.2) →
      (insertByCount x l).Pairwise (fun a b => b.2 ≤ a.2)
  | [], _ => by simp [insertByCount]
  | y :: ys, h => by
    obtain ⟨hy, hys⟩ := List.pairwise_cons.mp h
    by_cases hxy : y.2 < x.2
    · rw [insertByCount, if_pos hxy]
      refine List.Pairwise.cons (fun z hz => ?_) h
      rcases List.mem_cons.mp hz with h' | hz'
      · rw [h']
        exact le_of_lt hxy
      · exact le_trans (hy z hz') (le_of_lt hxy)
    · rw [insertByCount, if_neg hxy]
      refine List.Pairwise.cons (fun z hz => ?_)
        (pairwise_insertByCount x hys)
      rcases mem_insertByCount.mp hz with h' | hz'
      · rw [h']
        exact not_lt.mp hxy
      · exact hy z hz'

theorem pairwise_foldl_insertByCount :
    ∀ (items acc : List (String × Nat)),
      acc.Pairwise (fun a b => b.2 ≤ a.2) →
      (items.foldl (fun acc x => insertByCount x acc) acc).Pairwise
        (fun a b => b.2 ≤ a.2)
  | [], _, h => h
  | x :: xs, acc, h =>
    pairwise_foldl_insertByCount xs _ (pairwise_insertByCount x h)

theorem mostCommon_pairwise (k : Nat) (l : List String) :
    (mostCommon k l).Pairwise (fun a b => b.2 ≤ a.2) :=
  List.Pairwise.sublist (List.take_sublist _ _)
    (pairwise_foldl_insertByCount (counterItems l) [] List.Pairwise.nil)

/-- C5: each document of `k` tokens contributes exactly `max (k-1) 0`
bigrams, each bigram is the pair of adjacent tokens of that one document
joined by a space, the global bigram list is the per-document concatenation
(never crossing documents), and the report's bigram ranking is
count-descending with at most 50 entries. -/
theorem bigram_window (corpus : Corpus) (words : List String) :
    ((make_ngrams words 2).length : ℤ) = max ((words.length : ℤ) - 1) 0 ∧
    (∀ i, i + 1 < words.length →
      (make_ngrams words 2).getD i "" =
        words.getD i "" ++ " " ++ words.getD (i + 1) "") ∧
    allBigrams corpus =
      ((sortedCorpus corpus).map
        (fun d => make_ngrams (pySplit d.2) 2)).flatten ∧
    (analyzerReport corpus).top_bigrams.length ≤ 50 ∧
    (analyzerReport corpus).top_bigrams.Pairwise
      (fun a b => b.count ≤ a.count) := by
  refine ⟨?_, ?_, rfl, ?_, ?_⟩
  · have hlen : (make_ngrams words 2).length = words.length - 1 := by
      simp [make_ngrams]
    rw [hlen]
    omega
  · intro i hi
    have hi1 : i < words.length := Nat.lt_of_succ_lt hi
    have hm : i < (make_ngrams words 2).length := by
      simp [make_ngrams]
      omega
    rw [List.getD_eq_getElem _ _ hm, List.getD_eq_getElem _ _ hi1,
      List.getD_eq_getElem _ _ hi]
    simp only [make_ngrams, List.getElem_map, List.getElem_range]
    rw [List.drop_eq_getElem_cons hi1, List.drop_eq_getElem_cons hi]
    rfl
  · simp only [analyzerReport, List.length_map]
    exact List.length_take_le _ _
  · simp only [analyzerReport]
    rw [List.pairwise_map]
    exact mostCommon_pairwise 50 (allBigrams corpus)

/-- C5 witness: the window formula at a concrete document. -/
theorem bigram_window_witness :
    (make_ngrams ["x", "y", "z"] 2).getD 0 "" =
      (["x", "y", "z"] : List String).getD 0 "" ++ " " ++
        (["x", "y", "z"] : List String).getD 1 "" :=
  (bigram_window [] ["x", "y", "z"]).2.1 0 (by decide)

theorem getD_eq_getElem' (l : List α) (d : α) {i : Nat} (h : i < l.length) :
    l.getD i d = l[i] := by
  simp [List.getD_eq_getElem?_getD, List.getElem?_eq_getElem h]

theorem mem_pairIdx {n : Nat} {p : Nat × Nat} :
    p ∈ pairIdx n ↔ p.1 < p.2 ∧ p.2 < n := by
  obtain ⟨i, j⟩ := p
  simp only [pairIdx, List.mem_flatMap, List.mem_map, List.mem_range,
    List.mem_range'_1, Prod.mk.injEq]
  constructor
  · rintro ⟨i', hi', j', ⟨hj1, hj2⟩, rfl, rfl⟩
    exact ⟨by omega, by omega⟩
  · rintro ⟨hij, hjn⟩
    exact ⟨i, by omega, j, ⟨by omega, by omega⟩, rfl, rfl⟩

theorem nodup_pairIdx (n : Nat) : (pairIdx n).Nodup := by
  unfold pairIdx
  rw [List.nodup_flatMap]
  constructor
  · intro i _
    exact (List.nodup_range' (i + 1) (n - (i + 1))).map
      (fun a b hab => congrArg Prod.snd hab)
  · refine (List.pairwise_lt_range n).imp ?_
    intro a b hab p hp hp'
    simp only [List.mem_map] at hp hp'
    obtain ⟨j1, _, rfl⟩ := hp
    obtain ⟨j2, _, he⟩ := hp'
    exact absurd (congrArg Prod.fst he).symm (Nat.ne_of_lt hab)

theorem length_pairIdx (n : Nat) : (pairIdx n).length = n * (n - 1) / 2 := by
  have h1 : (pairIdx n).length
      = ((List.range n).map (fun i => n - (i + 1))).sum := by
    simp [pairIdx, List.length_flatMap, Function.comp_def]
  have h2 : ((List.range n).map (fun i => n - (i + 1))).sum
      = ∑ i in Finset.range n, (n - 1 - i) := by
    have hb : ((List.range n).map (fun i => n - (i + 1))).sum
        = ∑ i in Finset.range n, (n - (i + 1)) := rfl
    rw [hb]
    exact Finset.sum_congr rfl (fun i _ => by omega)
  rw [h1, h2, Finset.sum_range_reflect (fun i => i) n]
  exact Finset.sum_range_id n

/-- C3: for a corpus of `n` documents with distinct filenames, the
similarity list has exactly `n(n-1)/2` entries, no self-pairs, no repeated
unordered pair, and each entry pairs the `i`-th with the `j`-th document of
the filename-sorted order with `i < j`. -/
theorem similarity_pairs_complete (corpus : Corpus)
    (hnd : (corpus.map Prod.fst).Nodup) :
    (analyzerReport corpus).document_similarity.length =
      corpus.length * (corpus.length - 1) / 2 ∧
    (∀ e ∈ (analyzerReport corpus).document_similarity, e.doc1 ≠ e.doc2) ∧
    (analyzerReport corpus).document_similarity.Pairwise (fun e1 e2 =>
      ¬(e1.doc1 = e2.doc1 ∧ e1.doc2 = e2.doc2) ∧
      ¬(e1.doc1 = e2.doc2 ∧ e1.doc2 = e2.doc1)) ∧
    ∀ e ∈ (analyzerReport corpus).document_similarity, ∃ i j, i < j ∧
      j < corpus.length ∧
      e.doc1 = ((sortedCorpus corpus).map Prod.fst).getD i "" ∧
      e.doc2 = ((sortedCorpus corpus).map Prod.fst).getD j "" := by
  have hSlen : (sortedCorpus corpus).length = corpus.length := by
    unfold sortedCorpus
    exact (sortBy_perm _ corpus).length_eq
  have hLlen : ((sortedCorpus corpus).map Prod.fst).length = corpus.length := by
    rw [List.length_map, hSlen]
  have hndL : ((sortedCorpus corpus).map Prod.fst).Nodup := by
    unfold sortedCorpus
    exact (((sortBy_perm _ corpus).map Prod.fst).nodup_iff).mpr hnd
  have hmain : (analyzerReport corpus).document_similarity =
      (pairIdx corpus.length).map (fun p =>
        { doc1 := ((sortedCorpus corpus).map Prod.fst).getD p.1 ""
          doc2 := ((sortedCorpus corpus).map Prod.fst).getD p.2 ""
          similarity :=
            jaccard_score (tokensAt corpus p.1) (tokensAt corpus p.2) }) := by
    have hr : (analyzerReport corpus).document_similarity =
        (pairIdx (((sortedCorpus corpus).map Prod.fst).length)).map (fun p =>
          { doc1 := ((sortedCorpus corpus).map Prod.fst).getD p.1 ""
            doc2 := ((sortedCorpus corpus).map Prod.fst).getD p.2 ""
            similarity :=
              jaccard_score (tokensAt corpus p.1) (tokensAt corpus p.2) }) := rfl
    rw [hr, hLlen]
  refine ⟨?_, ?_, ?_, ?_⟩
  · rw [hmain, List.length_map, length_pairIdx]
  · rw [hmain]
    intro e he
    obtain ⟨p, hp, rfl⟩ := List.mem_map.mp he
    obtain ⟨h12, h2n⟩ := mem_pairIdx.mp hp
    dsimp only
    rw [getD_eq_getElem' _ _ (by rw [hLlen]; omega),
      getD_eq_getElem' _ _ (by rw [hLlen]; omega)]
    intro hEq
    exact absurd ((List.Nodup.getElem_inj_iff hndL).mp hEq) (by omega)
  · rw [hmain, List.pairwise_map]
    refine List.Pairwise.imp_of_mem ?_
      ((nodup_pairIdx corpus.length).imp (fun h => h))
    intro p q hp hq hpq
    obtain ⟨hp1, hp2⟩ := mem_pairIdx.mp hp
    obtain ⟨hq1, hq2⟩ := mem_pairIdx.mp hq
    dsimp only
    constructor
    · rintro ⟨e1, e2⟩
      rw [getD_eq_getElem' _ _ (by rw [hLlen]; omega),
        getD_eq_getElem' _ _ (by rw [hLlen]; omega)] at e1
      rw [getD_eq_getElem' _ _ (by rw [hLlen]; omega),
        getD_eq_getElem' _ _ (by rw [hLlen]; omega)] at e2
      exact hpq (Prod.ext ((List.Nodup.getElem_inj_iff hndL).mp e1)
        ((List.Nodup.getElem_inj_iff hndL).mp e2))
    · rintro ⟨e1, e2⟩
      rw [getD_eq_getElem' _ _ (by rw [hLlen]; omega),
        getD_eq_getElem' _ _ (by rw [hLlen]; omega)] at e1
      rw [getD_eq_getElem' _ _ (by rw [hLlen]; omega),
        getD_eq_getElem' _ _ (by rw [hLlen]; omega)] at e2
      have f1 := (List.Nodup.getElem_inj_iff hndL).mp e1
      have f2 := (List.Nodup.getElem_inj_iff hndL).mp e2
      omega
  · rw [hmain]
    intro e he
    obtain ⟨p, hp, rfl⟩ := List.mem_map.mp he
    obtain ⟨h12, h2n⟩ := mem_pairIdx.mp hp
    exact ⟨p.1, p.2, h12, h2n, rfl, rfl⟩

/-- C3 witness: a two-document corpus yields exactly one pair. -/
theorem similarity_pairs_complete_witness :
    (analyzerReport [("a.json", "x"), ("b.json", "y")]).document_similarity.length =
      ([("a.json", "x"), ("b.json", "y")] : Corpus).length *
        (([("a.json", "x"), ("b.json", "y")] : Corpus).length - 1) / 2 :=
  (similarity_pairs_complete [("a.json", "x"), ("b.json", "y")] (by decide)).1

theorem mem_counterKeys {a : String} :
    ∀ {l : List String}, a ∈ counterKeys l ↔ a ∈ l
  | [] => by simp [counterKeys]
  | x :: xs => by
    simp only [counterKeys, List.mem_cons, List.mem_filter,
      mem_counterKeys (l := xs), decide_eq_true_eq]
    by_cases h : a = x <;> tauto

theorem nodup_counterKeys : ∀ l : List String, (counterKeys l).Nodup
  | [] => List.Pairwise.nil
  | x :: xs => by
    refine List.Nodup.cons ?_ ((nodup_counterKeys xs).filter _)
    intro hmem
    have := (List.mem_filter.mp hmem).2
    simp at this

theorem toFinset_counterKeys (l : List String) :
    (counterKeys l).toFinset = l.toFinset := by
  ext a
  simp [List.mem_toFinset, mem_counterKeys]

theorem counter_total (l : List String) :
    ((counterItems l).map Prod.snd).sum = l.length := by
  unfold counterItems
  rw [List.map_map]
  have h1 : ((counterKeys l).map (Prod.snd ∘ fun w => (w, l.count w))).sum
      = ((counterKeys l).map (fun w => l.count w)).sum := by
    simp [Function.comp_def]
  rw [h1, ← List.sum_toFinset _ (nodup_counterKeys l), toFinset_counterKeys]
  exact List.sum_toFinset_count_eq_length l

theorem counter_weight_sum (l : List String) (f : String → ℕ) :
    ((counterItems l).map (fun wc => wc.2 * f wc.1)).sum = (l.map f).sum := by
  unfold counterItems
  rw [List.map_map]
  have h1 : ((counterKeys l).map
        ((fun wc : String × Nat => wc.2 * f wc.1) ∘ fun w => (w, l.count w))).sum
      = ((counterKeys l).map (fun w => l.count w * f w)).sum := by
    simp [Function.comp_def]
  rw [h1, ← List.sum_toFinset _ (nodup_counterKeys l), toFinset_counterKeys,
    Finset.sum_list_map_count l f]
  simp [smul_eq_mul]

/-- C8: the report readability block satisfies the spec formulas: the
estimated sentence count sums the `.`, `!`, `?` occurrences of every stored
text; `avg_sentence_length = total_words / max(est, 1)`;
`avg_word_length` is the summed character length of every token occurrence
divided by `total_words` (0 when no words); `complexity_score` is their
product; and `total_words` counts every token occurrence. -/
theorem readability_formulas (corpus : Corpus) :
    (analyzerReport corpus).readability.avg_sentence_length =
      ((analyzerReport corpus).total_words : ℚ) /
        ((max ((corpus.map (fun d => countChar '.' d.2 + countChar '!' d.2 +
          countChar '?' d.2)).sum) 1 : ℕ) : ℚ) ∧
    (analyzerReport corpus).readability.avg_word_length =
      (if (analyzerReport corpus).total_words = 0 then 0
       else ((((corpus.map (fun d => pySplit d.2)).flatten.map
           String.length).sum : ℕ) : ℚ) /
         ((analyzerReport corpus).total_words : ℚ)) ∧
    (analyzerReport corpus).readability.complexity_score =
      (analyzerReport corpus).readability.avg_sentence_length *
        (analyzerReport corpus).readability.avg_word_length ∧
    (analyzerReport corpus).total_words =
      (corpus.map (fun d => pySplit d.2)).flatten.length := by
  have hperm : List.Perm (sortedCorpus corpus) corpus := by
    unfold sortedCorpus
    exact sortBy_perm _ corpus
  have hest : ((sortedCorpus corpus).map (fun d => countChar '.' d.2 +
        countChar '!' d.2 + countChar '?' d.2)).sum
      = (corpus.map (fun d => countChar '.' d.2 + countChar '!' d.2 +
        countChar '?' d.2)).sum :=
    (hperm.map _).sum_eq
  have htok : List.Perm (allTokens corpus)
      (corpus.map (fun d => pySplit d.2)).flatten := by
    unfold allTokens
    exact (hperm.map (fun d => pySplit d.2)).flatten
  have hlen : ((allTokens corpus).map String.length).sum
      = ((corpus.map (fun d => pySplit d.2)).flatten.map String.length).sum :=
    (htok.map String.length).sum_eq
  have htot : ((counterItems (allTokens corpus)).map Prod.snd).sum
      = (corpus.map (fun d => pySplit d.2)).flatten.length := by
    rw [counter_total]
    exact htok.length_eq
  have hw : ((counterItems (allTokens corpus)).map
        (fun wc => wc.2 * wc.1.length)).sum
      = ((corpus.map (fun d => pySplit d.2)).flatten.map String.length).sum := by
    rw [counter_weight_sum]
    exact hlen
  refine ⟨?_, ?_, rfl, ?_⟩
  · simp only [analyzerReport]
    rw [hest]
  · simp only [analyzerReport]
    rw [hw]
  · simp only [analyzerReport]
    exact htot

theorem mem_foldl_insertByCount {a : String × Nat} :
    ∀ {l c : List (String × Nat)},
      a ∈ l.foldl (fun acc x => insertByCount x acc) c ↔
        a ∈ c ∨ a ∈ l
  | [], c => by simp
  | x :: xs, c => by
    simp only [List.foldl_cons, mem_foldl_insertByCount (l := xs),
      mem_insertByCount, List.mem_cons]
    tauto

/-- C1 counterexample: in the one-document corpus `{"doc1.json": "a a b"}`
the report's first top-word entry carries the relative frequency `2/3`
(count divided by total words), which differs from the document frequency
of `"a"` (1 — one distinct document contains it); no entry field holds the
document frequency. -/
theorem top_words_relative_frequency_cex :
    (analyzerReport [("doc1.json", "a a b")]).top_100_words =
      [{ word := "a", count := 2, frequency := 2/3 },
       { word := "b", count := 1, frequency := 1/3 }] ∧
    specDocumentFrequency [("doc1.json", "a a b")] "a" = 1 ∧
    (2/3 : ℚ) ≠ ((specDocumentFrequency [("doc1.json", "a a b")] "a" : ℕ) : ℚ) := by
  refine ⟨?_, by decide, ?_⟩
  · have h1 : mostCommon 100 (allTokens [("doc1.json", "a a b")]) =
        [("a", 2), ("b", 1)] := by decide
    have h2 : ((counterItems (allTokens [("doc1.json", "a a b")])).map
        Prod.snd).sum = 3 := by decide
    simp only [analyzerReport, h1, h2, List.map_cons, List.map_nil]
    norm_num
  · have h3 : specDocumentFrequency [("doc1.json", "a a b")] "a" = 1 := by
      decide
    rw [h3]
    norm_num

/-- C1 amended: every entry of `top_100_words` has the shape
`{word, count, frequency}` where `frequency` is the token's count divided
by the corpus total word count (not its document frequency), `count` is the
token's occurrence count, and the list has at most 100 entries. -/
theorem top_words_entry_shape (corpus : Corpus) (e : WordEntry)
    (he : e ∈ (analyzerReport corpus).top_100_words) :
    e.frequency = (e.count : ℚ) / ((analyzerReport corpus).total_words : ℚ) ∧
    e.count = (allTokens corpus).count e.word ∧
    (analyzerReport corpus).top_100_words.length ≤ 100 := by
  have hlen : (analyzerReport corpus).top_100_words.length ≤ 100 := by
    simp only [analyzerReport, List.length_map]
    exact List.length_take_le _ _
  simp only [analyzerReport, List.mem_map] at he
  obtain ⟨wc, hwc, rfl⟩ := he
  have hitems : wc ∈ counterItems (allTokens corpus) := by
    have h1 := (List.take_sublist 100 _).subset hwc
    rcases mem_foldl_insertByCount.mp h1 with h2 | h2
    · cases h2
    · exact h2
  obtain ⟨w, _, rfl⟩ := List.mem_map.mp hitems
  exact ⟨rfl, rfl, hlen⟩

/-- C1 amended witness: the entry shape at a concrete corpus. -/
theorem top_words_entry_shape_witness :
    ({ word := "a", count := 2,
        frequency := ((2 : ℕ) : ℚ) / ((3 : ℕ) : ℚ) } : WordEntry) ∈
      (analyzerReport [("doc1.json", "a a b")]).top_100_words ∧
    ({ word := "a", count := 2,
        frequency := ((2 : ℕ) : ℚ) / ((3 : ℕ) : ℚ) } : WordEntry).frequency =
      (({ word := "a", count := 2,
          frequency := ((2 : ℕ) : ℚ) / ((3 : ℕ) : ℚ) } : WordEntry).count : ℚ) /
        ((analyzerReport [("doc1.json", "a a b")]).total_words : ℚ) := by
  have h1 : mostCommon 100 (allTokens [("doc1.json", "a a b")]) =
      [("a", 2), ("b", 1)] := by decide
  have h2 : ((counterItems (allTokens [("doc1.json", "a a b")])).map
      Prod.snd).sum = 3 := by decide
  have hmem : ({ word := "a", count := 2,
                 frequency := ((2 : ℕ) : ℚ) / ((3 : ℕ) : ℚ) } : WordEntry) ∈
      (analyzerReport [("doc1.json", "a a b")]).top_100_words := by
    simp only [analyzerReport, h1, h2, List.map_cons, List.map_nil,
      List.mem_cons]
    exact Or.inl trivial
  exact ⟨hmem, (top_words_entry_shape [("doc1.json", "a a b")] _ hmem).1⟩

/-- C2: the code computes `paragraph_count` on the already
whitespace-collapsed text, so the two-paragraph document
`<p>A</p>\n\n<p>B</p>` gets `paragraph_count = 1`, while counting the
non-blank double-line-break blocks on the text that still has its original
line breaks (as the spec requires) gives 2. -/
theorem paragraph_count_divergence :
    (processDoc "doc1.html" "<p>A</p>\n\n<p>B</p>").statistics.paragraph_count
      = 1 ∧
    specParagraphCount "<p>A</p>\n\n<p>B</p>" = 2 := by
  constructor
  · decide
  · decide

/-- C6: script/style blocks are removed before any extraction (the text and
the attribute lists are all computed from the block-stripped markup), and
on the spec's example the script content leaks into neither the text (word
count 3, sentence count 1) nor the link/image lists. -/
theorem script_style_removed_before_extraction :
    (∀ s : String,
      strip_html s =
        ((pyStrip (collapseWs (stripTags (removeBlocks "<style".data
            "</style>".data (removeBlocks "<script".data "</script>".data
            s.data))))).asString,
          (findAttr "href=".data (removeBlocks "<style".data "</style>".data
            (removeBlocks "<script".data "</script>".data s.data))).map
            List.asString,
          (findAttr "src=".data (removeBlocks "<style".data "</style>".data
            (removeBlocks "<script".data "</script>".data s.data))).map
            List.asString)) ∧
    strip_html "<p>Hello <b>World</b>!</p><script>x=1</script>" =
      ("Hello World !", [], []) ∧
    (get_statistics "Hello World !").word_count = 3 ∧
    (get_statistics "Hello World !").sentence_count = 1 ∧
    strip_html "<p>Hi</p><script>var h = \"href=x src=y\"</script>" =
      ("Hi", [], []) :=
  ⟨fun _ => rfl, by decide, by decide, by decide, by decide⟩

/-! ### Scanner lemmas for attribute extraction -/

theorem startsWithCI_length {pat cs : List Char}
    (h : startsWithCI pat cs = true) : pat.length ≤ cs.length := by
  induction pat generalizing cs with
  | nil => simp
  | cons p ps ih =>
    cases cs with
    | nil => simp [startsWithCI] at h
    | cons c cs' =>
      simp only [startsWithCI, Bool.and_eq_true] at h
      simpa using Nat.succ_le_succ (ih h.2)

theorem matchAttrAt_rest_length {pat cs b rest : List Char} (hp : pat ≠ [])
    (h : matchAttrAt pat cs = some (b, rest)) : rest.length < cs.length := by
  by_cases hsw : startsWithCI pat cs = true
  · have hplen := startsWithCI_length hsw
    have hp1 : 1 ≤ pat.length := by
      cases pat with
      | nil => exact absurd rfl hp
      | cons _ _ => simp
    simp only [matchAttrAt, hsw, if_true] at h
    rcases hrest : List.drop pat.length cs with _ | ⟨q, rs⟩
    · rw [hrest] at h
      simp at h
    · have hrslen : rs.length + 1 = cs.length - pat.length := by
        have := congrArg List.length hrest
        simp only [List.length_drop, List.length_cons] at this
        omega
      rw [hrest] at h
      by_cases hq : (q = '"' || q = '\'') = true
      · simp only [hq, if_true] at h
        by_cases hemp : (rs.takeWhile okAttrChar).isEmpty = true
        · simp [hemp] at h
        · simp only [hemp, if_false, Option.some.injEq, Prod.mk.injEq,
            Bool.false_eq_true] at h
          have h2 : rest = rs.dropWhile okAttrChar := h.2.symm
          have h3 : (rs.dropWhile okAttrChar).length ≤ rs.length :=
            (List.dropWhile_sublist okAttrChar).length_le
          rw [h2]
          omega
      · simp only [hq, if_false, Bool.false_eq_true] at h
        by_cases hemp : ((q :: rs).takeWhile okAttrChar).isEmpty = true
        · simp [hemp] at h
        · simp only [hemp, if_false, Option.some.injEq, Prod.mk.injEq,
            Bool.false_eq_true] at h
          have h2 : rest = (q :: rs).dropWhile okAttrChar := h.2.symm
          have h3 : ((q :: rs).dropWhile okAttrChar).length ≤ rs.length + 1 := by
            simpa using (List.dropWhile_sublist (l := q :: rs) okAttrChar).length_le
          rw [h2]
          omega
  · simp only [matchAttrAt] at h
    rw [if_neg hsw] at h
    cases h

theorem findAttrGo_skip {pat : List Char} (f : Nat) {c : Char}
    {cs : List Char} (h : matchAttrAt pat (c :: cs) = none) :
    findAttrGo pat (f + 1) (c :: cs) = findAttrGo pat f cs := by
  simp [findAttrGo, h]

theorem findAttrGo_hit {pat : List Char} (f : Nat) {c : Char}
    {cs b rest : List Char} (h : matchAttrAt pat (c :: cs) = some (b, rest)) :
    findAttrGo pat (f + 1) (c :: cs) = b :: findAttrGo pat f rest := by
  simp [findAttrGo, h]

theorem findAttrGo_fuel {pat : List Char} (hp : pat ≠ []) :
    ∀ (f₁ : Nat) (cs : List Char) (f₂ : Nat), cs.length ≤ f₁ →
      cs.length ≤ f₂ → findAttrGo pat f₁ cs = findAttrGo pat f₂ cs := by
  intro f₁
  induction f₁ with
  | zero =>
    intro cs f₂ h1 _
    have : cs = [] := by
      cases cs with
      | nil => rfl
      | cons _ _ => simp at h1
    subst this
    cases f₂ <;> rfl
  | succ f ih =>
    intro cs f₂ h1 h2
    cases cs with
    | nil => cases f₂ <;> rfl
    | cons c cs' =>
      cases f₂ with
      | zero => simp at h2
      | succ g =>
        rcases hm : matchAttrAt pat (c :: cs') with _ | ⟨b, rest⟩
        · rw [findAttrGo_skip f hm, findAttrGo_skip g hm]
          exact ih cs' g (by simpa using h1) (by simpa using h2)
        · rw [findAttrGo_hit f hm, findAttrGo_hit g hm]
          have hlt := matchAttrAt_rest_length hp hm
          simp only [List.length_cons] at hlt h1 h2
          exact congrArg _ (ih rest g (by omega) (by omega))

theorem matchAttrAt_cons_ne {p c : Char} {ps : List Char}
    (h : lowerChar c ≠ p) (cs : List Char) :
    matchAttrAt (p :: ps) (c :: cs) = none := by
  have hsw : startsWithCI (p :: ps) (c :: cs) = false := by
    simp [startsWithCI, h]
  simp [matchAttrAt, hsw]

theorem matchAttrAt_exact {pat lits u rest' : List Char}
    (hlen : lits.length = pat.length)
    (hsw : startsWithCI pat (lits ++ '"' :: (u ++ '"' :: rest')) = true)
    (hne : u ≠ []) (hok : ∀ c ∈ u, okAttrChar c = true) :
    matchAttrAt pat (lits ++ '"' :: (u ++ '"' :: rest')) =
      some (u, '"' :: rest') := by
  have hdrop : List.drop pat.length (lits ++ '"' :: (u ++ '"' :: rest'))
      = '"' :: (u ++ '"' :: rest') := by
    rw [← hlen]
    exact List.drop_left _ _
  have htake : (u ++ '"' :: rest').takeWhile okAttrChar = u := by
    rw [List.takeWhile_append_of_pos hok]
    simp [List.takeWhile, okAttrChar]
  have hdropw : (u ++ '"' :: rest').dropWhile okAttrChar = '"' :: rest' := by
    rw [List.dropWhile_append_of_pos hok]
    simp [List.dropWhile, okAttrChar]
  obtain ⟨x, xs, rfl⟩ := List.exists_cons_of_ne_nil hne
  simp only [matchAttrAt, hsw, if_true, hdrop, htake, hdropw]
  simp

theorem findAttrGo_mkLinkPage :
    ∀ (us : List String), (∀ u ∈ us, okUrl u) →
      ∀ f, (mkLinkPage us).data.length ≤ f →
        findAttrGo "href=".data f (mkLinkPage us).data = us.map String.data
  | [], _ => by
    intro f _
    cases f <;> rfl
  | u :: us', hok => by
    intro f hf
    obtain ⟨hne, hchars⟩ := hok u (by simp)
    have hok' : ∀ v ∈ us', okUrl v := fun v hv => hok v (by simp [hv])
    have hpat : "href=".data = ['h', 'r', 'e', 'f', '='] := rfl
    have hdata : (mkLinkPage (u :: us')).data =
        '<' :: 'a' :: ' ' :: 'h' :: 'r' :: 'e' :: 'f' :: '=' :: '"' ::
          (u.data ++ '"' :: '>' :: (mkLinkPage us').data) := by
      simp only [mkLinkPage, String.data_append]
      simp
    rw [hdata] at hf ⊢
    rw [hpat]
    have hulen : 1 ≤ u.data.length := List.length_pos.mpr hne
    have hflen : 11 + u.data.length + (mkLinkPage us').data.length ≤ f := by
      simp only [List.length_cons, List.length_append] at hf
      omega
    obtain ⟨g, rfl⟩ : ∃ g, f = g + 6 := ⟨f - 6, by omega⟩
    rw [show g + 6 = (g + 5) + 1 from by omega,
      findAttrGo_skip _ (matchAttrAt_cons_ne (by decide) _),
      show g + 5 = (g + 4) + 1 from by omega,
      findAttrGo_skip _ (matchAttrAt_cons_ne (by decide) _),
      show g + 4 = (g + 3) + 1 from by omega,
      findAttrGo_skip _ (matchAttrAt_cons_ne (by decide) _)]
    have hhit : matchAttrAt ['h', 'r', 'e', 'f', '=']
        ('h' :: 'r' :: 'e' :: 'f' :: '=' :: '"' ::
          (u.data ++ '"' :: '>' :: (mkLinkPage us').data)) =
        some (u.data, '"' :: '>' :: (mkLinkPage us').data) := by
      rw [show ('h' :: 'r' :: 'e' :: 'f' :: '=' :: '"' ::
          (u.data ++ '"' :: '>' :: (mkLinkPage us').data)) =
          ['h', 'r', 'e', 'f', '='] ++ '"' ::
            (u.data ++ '"' :: ('>' :: (mkLinkPage us').data)) from rfl]
      exact matchAttrAt_exact rfl (by simp [startsWithCI, lowerChar]) hne hchars
    rw [show g + 3 = (g + 2) + 1 from by omega, findAttrGo_hit _ hhit,
      show g + 2 = (g + 1) + 1 from by omega,
      findAttrGo_skip _ (matchAttrAt_cons_ne (by decide) _),
      findAttrGo_skip _ (matchAttrAt_cons_ne (by decide) _)]
    rw [findAttrGo_fuel (by decide) g (mkLinkPage us').data
      (mkLinkPage us').data.length (by omega) (le_refl _)]
    rw [← hpat, findAttrGo_mkLinkPage us' hok' _ (le_refl _)]
    rfl

theorem findAttrGo_mkImgPage :
    ∀ (us : List String), (∀ u ∈ us, okUrl u) →
      ∀ f, (mkImgPage us).data.length ≤ f →
        findAttrGo "src=".data f (mkImgPage us).data = us.map String.data
  | [], _ => by
    intro f _
    cases f <;> rfl
  | u :: us', hok => by
    intro f hf
    obtain ⟨hne, hchars⟩ := hok u (by simp)
    have hok' : ∀ v ∈ us', okUrl v := fun v hv => hok v (by simp [hv])
    have hpat : "src=".data = ['s', 'r', 'c', '='] := rfl
    have hdata : (mkImgPage (u :: us')).data =
        '<' :: 'i' :: 'm' :: 'g' :: ' ' :: 's' :: 'r' :: 'c' :: '=' :: '"' ::
          (u.data ++ '"' :: '>' :: (mkImgPage us').data) := by
      simp only [mkImgPage, String.data_append]
      simp
    rw [hdata] at hf ⊢
    rw [hpat]
    have hulen : 1 ≤ u.data.length := List.length_pos.mpr hne
    have hflen : 12 + u.data.length + (mkImgPage us').data.length ≤ f := by
      simp only [List.length_cons, List.length_append] at hf
      omega
    obtain ⟨g, rfl⟩ : ∃ g, f = g + 8 := ⟨f - 8, by omega⟩
    rw [show g + 8 = (g + 7) + 1 from by omega,
      findAttrGo_skip _ (matchAttrAt_cons_ne (by decide) _),
      show g + 7 = (g + 6) + 1 from by omega,
      findAttrGo_skip _ (matchAttrAt_cons_ne (by decide) _),
      show g + 6 = (g + 5) + 1 from by omega,
      findAttrGo_skip _ (matchAttrAt_cons_ne (by decide) _),
      show g + 5 = (g + 4) + 1 from by omega,
      findAttrGo_skip _ (matchAttrAt_cons_ne (by decide) _),
      show g + 4 = (g + 3) + 1 from by omega,
      findAttrGo_skip _ (matchAttrAt_cons_ne (by decide) _)]
    have hhit : matchAttrAt ['s', 'r', 'c', '=']
        ('s' :: 'r' :: 'c' :: '=' :: '"' ::
          (u.data ++ '"' :: '>' :: (mkImgPage us').data)) =
        some (u.data, '"' :: '>' :: (mkImgPage us').data) := by
      rw [show ('s' :: 'r' :: 'c' :: '=' :: '"' ::
          (u.data ++ '"' :: '>' :: (mkImgPage us').data)) =
          ['s', 'r', 'c', '='] ++ '"' ::
            (u.data ++ '"' :: ('>' :: (mkImgPage us').data)) from rfl]
      exact matchAttrAt_exact rfl (by simp [startsWithCI, lowerChar]) hne hchars
    rw [show g + 3 = (g + 2) + 1 from by omega, findAttrGo_hit _ hhit,
      show g + 2 = (g + 1) + 1 from by omega,
      findAttrGo_skip _ (matchAttrAt_cons_ne (by decide) _),
      findAttrGo_skip _ (matchAttrAt_cons_ne (by decide) _)]
    rw [findAttrGo_fuel (by decide) g (mkImgPage us').data
      (mkImgPage us').data.length (by omega) (le_refl _)]
    rw [← hpat, findAttrGo_mkImgPage us' hok' _ (le_refl _)]
    rfl

theorem asString_data (s : String) : s.data.asString = s := rfl

/-- C7: the link and image lists are the `href=` / `src=` attribute values
extracted from the script/style-stripped markup; on any page of well-formed
tags the extracted list is exactly the URL list, in textual order and
without deduplication (repeated URLs stay repeated). -/
theorem attr_extraction_order_no_dedup (us : List String)
    (hok : ∀ u ∈ us, okUrl u) :
    (∀ s : String,
      (strip_html s).2.1 = (findAttr "href=".data (removeBlocks "<style".data
        "</style>".data (removeBlocks "<script".data "</script>".data
        s.data))).map List.asString ∧
      (strip_html s).2.2 = (findAttr "src=".data (removeBlocks "<style".data
        "</style>".data (removeBlocks "<script".data "</script>".data
        s.data))).map List.asString) ∧
    (findAttr "href=".data (mkLinkPage us).data).map List.asString = us ∧
    (findAttr "src=".data (mkImgPage us).data).map List.asString = us := by
  refine ⟨fun s => ⟨rfl, rfl⟩, ?_, ?_⟩
  · unfold findAttr
    rw [findAttrGo_mkLinkPage us hok _ (le_refl _)]
    simp [List.map_map, Function.comp_def, asString_data]
  · unfold findAttr
    rw [findAttrGo_mkImgPage us hok _ (le_refl _)]
    simp [List.map_map, Function.comp_def, asString_data]

/-- C7 witness: a page with a repeated URL keeps the duplicate, in order. -/
theorem attr_extraction_order_no_dedup_witness :
    (findAttr "href=".data (mkLinkPage ["x", "x"]).data).map List.asString =
      ["x", "x"] :=
  (attr_extraction_order_no_dedup ["x", "x"] (by decide)).2.1

end Pipeline
